import Mathlib

/-!
Shallow embedding of the VCF sample-column filter
(source: src/VCF_SampleFilter_V1_1.cpp).

Strings are modelled as lists of characters (`Str`).  The C++ code splits
lines with repeated `std::getline` on the tab character; that loop yields
the usual tab-separated tokens except that an empty line yields no token at
all and a line ending in a tab does not yield a final empty token (a
`getline` that extracts zero characters at end of stream fails).
`cppSplit` captures exactly this, built from the ordinary splitter
`splitTab`.
-/

namespace VCFModel

abbrev Str := List Char

def tab : Char := '\t'

def dotStr : Str := ['.']

def formatName : Str := String.toList "FORMAT"

def chromTag : Str := String.toList "#CHROM"

/-- Ordinary split on the tab character: always returns at least one token. -/
def splitTab : Str → List Str
  | [] => [[]]
  | c :: cs =>
    if c = tab then [] :: splitTab cs
    else
      match splitTab cs with
      | [] => [[c]]
      | p :: ps => (c :: p) :: ps

/-- Join with a single tab between tokens (mirrors the `ostringstream`
reconstruction loops in `process_header` / `process_data_line`). -/
def joinTab : List Str → Str
  | [] => []
  | [p] => p
  | p :: q :: ps => p ++ tab :: joinTab (q :: ps)

/-- Tokenisation performed by the `while (std::getline(iss, token, tab))`
loops in the source: empty input gives no tokens, and a trailing tab does
not give a trailing empty token. -/
def cppSplit (l : Str) : List Str :=
  if l = [] then []
  else if l.getLast? = some tab then (splitTab l).dropLast
  else splitTab l

/-- Error kinds named as in the specification; the source raises them as
`std::runtime_error` with the corresponding messages ("Cannot open sample
file" / "No samples found in sample file" for `configError`, "FORMAT column
not found in header" for `formatError`, "No matching samples found in VCF
header" for `noMatchError`). -/
inductive VCFErr where
  | configError
  | formatError
  | noMatchError
deriving DecidableEq

/-- C locale `isspace`: space, tab, newline, vertical tab, form feed,
carriage return. -/
def isCppSpace (c : Char) : Bool :=
  c == ' ' || c == '\t' || c == '\n' || c == Char.ofNat 11 || c == Char.ofNat 12 || c == '\r'

/-- Models `sample.erase(std::remove_if(sample.begin(), sample.end(), ::isspace), sample.end())`:
removes every whitespace character of the line, interior ones included. -/
def stripWS (l : Str) : Str := l.filter (fun c => !(isCppSpace c))

/-- Models `load_samples`: the sample-name source is `none` when the file cannot be
opened, otherwise the list of its lines.  The C++ inserts the cleaned names
into an `unordered_set` that is only ever queried for membership; the
embedding keeps the list of cleaned names (same membership). -/
def loadSamples (src : Option (List Str)) : Except VCFErr (List Str) :=
  match src with
  | none => .error .configError
  | some lines =>
    let names := (lines.map stripWS).filter (fun l => !l.isEmpty)
    if names.isEmpty then .error .configError else .ok names

/-- The `for (i = 0; i < fields.size(); i++) if (fields[i] == "FORMAT") break`
scan of `process_header`: index of the first occurrence of `FORMAT`. -/
def findFormatIdx : List Str → Option Nat
  | [] => none
  | f :: fs => if f = formatName then some 0 else (findFormatIdx fs).map (· + 1)

/-- The `for (i = format_idx + 1; i < fields.size(); i++)` selection loop of
`process_header`, started at absolute index `i` on the remaining fields:
collects `(index, field)` for every field that is a member of the target
set, in encounter order. -/
def scanSelAux (ts : List Str) : Nat → List Str → List (Nat × Str)
  | _, [] => []
  | i, f :: fs =>
    if f ∈ ts then (i, f) :: scanSelAux ts (i + 1) fs
    else scanSelAux ts (i + 1) fs

/-- Models `process_header`.  `cur` is the current content of the member vector
`sample_indices` (the C++ loop appends to it with `push_back` and the
emptiness test at line 128 inspects the whole vector, so a previously
resolved header contributes its indices). -/
def process_header (ts : List Str) (cur : List Nat) (line : Str) :
    Except VCFErr (List Nat × Str) :=
  let fields := cppSplit line
  match findFormatIdx fields with
  | none => .error .formatError
  | some p =>
    let sel := scanSelAux ts (p + 1) (fields.drop (p + 1))
    let idxs := cur ++ sel.map Prod.fst
    if idxs = [] then .error .noMatchError
    else .ok (idxs, joinTab (fields.take (p + 1) ++ sel.map Prod.snd))

/-- Models `process_data_line`: fewer than 9 fields is passed through unchanged;
otherwise the first 9 fields are kept and each selected index contributes
the field at that position, or "." when the position is out of range. -/
def process_data_line (idxs : List Nat) (line : Str) : Str :=
  let fields := cppSplit line
  if fields.length < 9 then line
  else joinTab (fields.take 9 ++ idxs.map (fun i => fields.getD i dotStr))

/-- The per-line dispatch of `worker_thread` (lines 260-269 of the source):
empty lines and comment lines pass through, except that a line whose text
begins with "#CHROM" (`line.find("#CHROM") == 0`) is routed to
`process_header`; anything else is a data line.  The pair threads the
shared `sample_indices` state. -/
def worker_step (ts : List Str) (cur : List Nat) (line : Str) :
    Except VCFErr (List Nat × Str) :=
  if line = [] ∨ line.head? = some '#' then
    if chromTag.isPrefixOf line then process_header ts cur line
    else .ok (cur, line)
  else .ok (cur, process_data_line cur line)

/-- Sequential reference processing: the outputs produced when the lines are
processed one after the other in input order (what a single worker does),
stopping at the first processing error (an uncaught exception in
`worker_thread` terminates the program). -/
def seqOuts (ts : List Str) : List Nat → List Str → List Str
  | _, [] => []
  | cur, l :: ls =>
    match worker_step ts cur l with
    | .ok p => p.2 :: seqOuts ts p.1 ls
    | .error _ => []

/-- Sequential end-to-end processing with error propagation. -/
def seqRunE (ts : List Str) : List Nat → List Str → Except VCFErr (List Str)
  | _, [] => .ok []
  | cur, l :: ls =>
    match worker_step ts cur l with
    | .ok p => (seqRunE ts p.1 ls).map (fun r => p.2 :: r)
    | .error e => .error e

/-- Models `filter()` in sequential form: `load_samples` runs first (before any
thread starts), then the lines are processed. -/
def runPipelineSeq (src : Option (List Str)) (input : List Str) :
    Except VCFErr (List Str) :=
  match loadSamples src with
  | .error e => .error e
  | .ok ts => seqRunE ts [] input

/-! ### The concurrent pipeline

One reader, `n` workers, one writer, two bounded FIFO queues of capacity
`MAX_QUEUE_SIZE = 1000`.  A worker iteration is three observable steps:
popping the front of the input queue (under `input_mutex`), processing the
line (outside any lock, reading and possibly extending the shared
`sample_indices` vector), and pushing the result onto the output queue
(under `output_mutex`, blocking while the queue is full).  The reader
pushes lines in file order, blocking while the input queue is full, and
the writer pops the front of the output queue and appends it to the output
file.  `Step` is the interleaving small-step relation over these actions;
nothing in the source tags records with sequence numbers or reorders them. -/

def qcap : Nat := 1000

/-- Observable phase of one worker iteration. -/
inductive WStatus where
  | idle
  | popped (l : Str)
  | processed (o : Str)
deriving DecidableEq

structure PState where
  remaining : List Str
  inQ : List Str
  workers : List WStatus
  outQ : List Str
  written : List Str
  idxs : List Nat
deriving DecidableEq

inductive Step (ts : List Str) : PState → PState → Prop where
  | read (l : Str) (rem inQ : List Str) (ws : List WStatus) (outQ wr : List Str)
      (ix : List Nat) (h : inQ.length < qcap) :
      Step ts ⟨l :: rem, inQ, ws, outQ, wr, ix⟩ ⟨rem, inQ ++ [l], ws, outQ, wr, ix⟩
  | pop (i : Nat) (l : Str) (rem inQ : List Str) (ws : List WStatus) (outQ wr : List Str)
      (ix : List Nat) (h : ws[i]? = some .idle) :
      Step ts ⟨rem, l :: inQ, ws, outQ, wr, ix⟩
        ⟨rem, inQ, ws.set i (.popped l), outQ, wr, ix⟩
  | work (i : Nat) (l : Str) (ix2 : List Nat) (o : Str) (rem inQ : List Str)
      (ws : List WStatus) (outQ wr : List Str) (ix : List Nat)
      (h : ws[i]? = some (.popped l)) (h2 : worker_step ts ix l = .ok (ix2, o)) :
      Step ts ⟨rem, inQ, ws, outQ, wr, ix⟩
        ⟨rem, inQ, ws.set i (.processed o), outQ, wr, ix2⟩
  | push (i : Nat) (o : Str) (rem inQ : List Str) (ws : List WStatus) (outQ wr : List Str)
      (ix : List Nat) (h : ws[i]? = some (.processed o)) (hc : outQ.length < qcap) :
      Step ts ⟨rem, inQ, ws, outQ, wr, ix⟩
        ⟨rem, inQ, ws.set i .idle, outQ ++ [o], wr, ix⟩
  | write (o : Str) (rem inQ : List Str) (ws : List WStatus) (outQ wr : List Str)
      (ix : List Nat) :
      Step ts ⟨rem, inQ, ws, o :: outQ, wr, ix⟩ ⟨rem, inQ, ws, outQ, wr ++ [o], ix⟩

/-- Start of a run with `n` workers: nothing read, both queues empty, every
worker idle, `sample_indices` empty. -/
def initState (n : Nat) (input : List Str) : PState :=
  ⟨input, [], List.replicate n .idle, [], [], []⟩

def Reachable (ts : List Str) (n : Nat) (input : List Str) (s : PState) : Prop :=
  Relation.ReflTransGen (Step ts) (initState n input) s

/-- Line held by a worker that has popped but not yet processed. -/
def wIn : WStatus → List Str
  | .popped l => [l]
  | _ => []

/-- Result held by a worker that has processed but not yet pushed. -/
def wOut : WStatus → List Str
  | .processed o => [o]
  | _ => []

/-- Number of records currently held by a worker (0 or 1). -/
def heldW : WStatus → Nat
  | .idle => 0
  | _ => 1

/-! ### Lemmas about splitting and joining -/

theorem splitTab_ne_nil (l : Str) : splitTab l ≠ [] := by
  cases l with
  | nil => simp [splitTab]
  | cons c cs =>
    simp only [splitTab]
    split
    · simp
    · split <;> simp

theorem splitTab_cons_eq (c : Char) (cs : Str) (hc : ¬ c = tab) (q : Str) (ps : List Str)
    (h : splitTab cs = q :: ps) : splitTab (c :: cs) = (c :: q) :: ps := by
  simp [splitTab, hc, h]

theorem noTab_of_mem_splitTab : ∀ (l : Str), ∀ p ∈ splitTab l, tab ∉ p := by
  intro l
  induction l with
  | nil =>
    intro p hp
    simp only [splitTab, List.mem_singleton] at hp
    simp [hp]
  | cons c cs ih =>
    intro p hp
    by_cases hc : c = tab
    · rw [show splitTab (c :: cs) = [] :: splitTab cs by simp [splitTab, hc]] at hp
      rcases List.mem_cons.mp hp with h | h
      · simp [h]
      · exact ih p h
    · rcases hq : splitTab cs with _ | ⟨q, ps⟩
      · exact absurd hq (splitTab_ne_nil cs)
      · rw [splitTab_cons_eq c cs hc q ps hq] at hp
        rcases List.mem_cons.mp hp with h | h
        · subst h
          intro hmem
          rcases List.mem_cons.mp hmem with h1 | h1
          · exact hc h1.symm
          · exact ih q (hq ▸ List.mem_cons_self q ps) h1
        · exact ih p (hq ▸ List.mem_cons_of_mem q h)

theorem splitTab_of_noTab : ∀ (l : Str), tab ∉ l → splitTab l = [l] := by
  intro l
  induction l with
  | nil => intro _; rfl
  | cons c cs ih =>
    intro h
    have hc : c ≠ tab := fun hh => h (hh ▸ List.mem_cons_self c cs)
    have hcs : tab ∉ cs := fun hh => h (List.mem_cons_of_mem c hh)
    simp only [splitTab, if_neg hc, ih hcs]

theorem splitTab_append (p r : Str) (hp : tab ∉ p) :
    splitTab (p ++ tab :: r) = p :: splitTab r := by
  induction p with
  | nil => simp [splitTab]
  | cons c cs ih =>
    have hc : c ≠ tab := fun hh => hp (hh ▸ List.mem_cons_self c cs)
    have hcs : tab ∉ cs := fun hh => hp (List.mem_cons_of_mem c hh)
    rw [List.cons_append]
    exact splitTab_cons_eq c _ hc _ _ (ih hcs)

theorem splitTab_joinTab : ∀ (parts : List Str), parts ≠ [] →
    (∀ p ∈ parts, tab ∉ p) → splitTab (joinTab parts) = parts := by
  intro parts
  induction parts with
  | nil => intro h; exact absurd rfl h
  | cons p rest ih =>
    intro _ htf
    cases rest with
    | nil =>
      simp only [joinTab]
      exact splitTab_of_noTab p (htf p (List.mem_singleton.mpr rfl))
    | cons q ps =>
      simp only [joinTab]
      rw [splitTab_append p _ (htf p (List.mem_cons_self _ _))]
      rw [ih (by simp) (fun x hx => htf x (List.mem_cons_of_mem p hx))]

theorem joinTab_ne_nil : ∀ (parts : List Str), 2 ≤ parts.length → joinTab parts ≠ [] := by
  intro parts h
  match parts, h with
  | p :: q :: ps, _ =>
    simp only [joinTab]
    simp

theorem getLast?_joinTab : ∀ (parts : List Str) (q : Str),
    parts.getLast? = some q → q ≠ [] → (joinTab parts).getLast? = q.getLast? := by
  intro parts
  induction parts with
  | nil => intro q hq _; simp at hq
  | cons p rest ih =>
    intro q hq hqne
    cases rest with
    | nil =>
      simp only [List.getLast?_singleton, Option.some.injEq] at hq
      subst hq
      rfl
    | cons r ps =>
      rw [List.getLast?_cons_cons] at hq
      have hres := ih q hq hqne
      have hne : joinTab (r :: ps) ≠ [] := by
        intro hnil
        rw [hnil] at hres
        have h0 : q.getLast? = none := hres.symm
        rw [List.getLast?_eq_none_iff] at h0
        exact hqne h0
      simp only [joinTab]
      rw [List.getLast?_append_cons, ← hres]
      rcases hj : joinTab (r :: ps) with _ | ⟨a, as⟩
      · exact absurd hj hne
      · rw [List.getLast?_cons_cons]

theorem noTab_of_mem_cppSplit (l : Str) : ∀ p ∈ cppSplit l, tab ∉ p := by
  intro p hp
  unfold cppSplit at hp
  split at hp
  · simp at hp
  · split at hp
    · exact noTab_of_mem_splitTab l p (List.dropLast_subset _ hp)
    · exact noTab_of_mem_splitTab l p hp

/-- Re-tokenising a joined line recovers the tokens, provided the line is
non-degenerate: at least two tokens, none containing a tab, and the joined
text not ending in a tab. -/
theorem cppSplit_joinTab (parts : List Str) (h2 : 2 ≤ parts.length)
    (htf : ∀ p ∈ parts, tab ∉ p) (hlast : (joinTab parts).getLast? ≠ some tab) :
    cppSplit (joinTab parts) = parts := by
  unfold cppSplit
  rw [if_neg (joinTab_ne_nil parts h2), if_neg hlast]
  exact splitTab_joinTab parts (by intro h; rw [h] at h2; simp at h2) htf

/-! ### Lemmas about the header scan -/

theorem findFormatIdx_lt : ∀ (fs : List Str) (p : Nat),
    findFormatIdx fs = some p → p < fs.length := by
  intro fs
  induction fs with
  | nil => intro p hp; simp [findFormatIdx] at hp
  | cons f fs ih =>
    intro p hp
    by_cases hf : f = formatName
    · simp [findFormatIdx, hf] at hp
      simp only [List.length_cons]
      omega
    · simp only [findFormatIdx, if_neg hf, Option.map_eq_some'] at hp
      rcases hp with ⟨q, hq, rfl⟩
      have := ih q hq
      simp only [List.length_cons]
      omega

theorem findFormatIdx_getD : ∀ (fs : List Str) (p : Nat),
    findFormatIdx fs = some p → fs.getD p [] = formatName := by
  intro fs
  induction fs with
  | nil => intro p hp; simp [findFormatIdx] at hp
  | cons f fs ih =>
    intro p hp
    by_cases hf : f = formatName
    · simp [findFormatIdx, hf] at hp
      simp [← hp, hf]
    · simp only [findFormatIdx, if_neg hf, Option.map_eq_some'] at hp
      rcases hp with ⟨q, hq, rfl⟩
      simpa using ih q hq

theorem findFormatIdx_before : ∀ (fs : List Str) (p : Nat),
    findFormatIdx fs = some p → ∀ k < p, fs.getD k [] ≠ formatName := by
  intro fs
  induction fs with
  | nil => intro p hp; simp [findFormatIdx] at hp
  | cons f fs ih =>
    intro p hp k hk
    by_cases hf : f = formatName
    · simp [findFormatIdx, hf] at hp
      omega
    · simp only [findFormatIdx, if_neg hf, Option.map_eq_some'] at hp
      rcases hp with ⟨q, hq, rfl⟩
      cases k with
      | zero => simpa using hf
      | succ k => simpa using ih q hq k (by omega)

theorem findFormatIdx_append_left : ∀ (l1 l2 : List Str) (p : Nat),
    findFormatIdx l1 = some p → findFormatIdx (l1 ++ l2) = some p := by
  intro l1 l2
  induction l1 with
  | nil => intro p hp; simp [findFormatIdx] at hp
  | cons f fs ih =>
    intro p hp
    by_cases hf : f = formatName
    · simp [findFormatIdx, hf] at hp ⊢
      omega
    · simp only [findFormatIdx, if_neg hf, Option.map_eq_some'] at hp
      rcases hp with ⟨q, hq, rfl⟩
      simp only [List.cons_append, findFormatIdx, if_neg hf, Option.map_eq_some']
      exact ⟨q, ih q hq, rfl⟩

theorem findFormatIdx_take : ∀ (l : List Str) (p n : Nat),
    findFormatIdx l = some p → p < n → findFormatIdx (l.take n) = some p := by
  intro l
  induction l with
  | nil => intro p n hp; simp [findFormatIdx] at hp
  | cons f fs ih =>
    intro p n hp hn
    by_cases hf : f = formatName
    · simp [findFormatIdx, hf] at hp
      cases n with
      | zero => omega
      | succ n => simp [findFormatIdx, hf, ← hp]
    · simp only [findFormatIdx, if_neg hf, Option.map_eq_some'] at hp
      rcases hp with ⟨q, hq, rfl⟩
      cases n with
      | zero => omega
      | succ n =>
        simp only [List.take_succ_cons, findFormatIdx, if_neg hf, Option.map_eq_some']
        exact ⟨q, ih q n hq (by omega), rfl⟩

theorem scanSel_mem : ∀ (fs : List Str) (ts : List Str) (i : Nat) (pr : Nat × Str),
    pr ∈ scanSelAux ts i fs →
    i ≤ pr.1 ∧ pr.1 - i < fs.length ∧ fs.getD (pr.1 - i) [] = pr.2 ∧ pr.2 ∈ ts := by
  intro fs
  induction fs with
  | nil => intro ts i pr hpr; simp [scanSelAux] at hpr
  | cons f fs ih =>
    intro ts i pr hpr
    simp only [scanSelAux] at hpr
    by_cases hf : f ∈ ts
    · rw [if_pos hf] at hpr
      rcases List.mem_cons.mp hpr with h | h
      · subst h
        refine ⟨le_refl i, by simp, by simp, hf⟩
      · rcases ih ts (i + 1) pr h with ⟨h1, h2, h3, h4⟩
        refine ⟨by omega, by simp; omega, ?_, h4⟩
        have : pr.1 - i = (pr.1 - (i + 1)) + 1 := by omega
        rw [this]
        simpa using h3
    · rw [if_neg hf] at hpr
      rcases ih ts (i + 1) pr hpr with ⟨h1, h2, h3, h4⟩
      refine ⟨by omega, by simp; omega, ?_, h4⟩
      have : pr.1 - i = (pr.1 - (i + 1)) + 1 := by omega
      rw [this]
      simpa using h3

theorem scanSel_complete : ∀ (fs : List Str) (ts : List Str) (i j : Nat),
    j < fs.length → fs.getD j [] ∈ ts →
    (i + j, fs.getD j []) ∈ scanSelAux ts i fs := by
  intro fs
  induction fs with
  | nil => intro ts i j hj; simp at hj
  | cons f fs ih =>
    intro ts i j hj hmem
    cases j with
    | zero =>
      simp only [List.getD_cons_zero] at hmem ⊢
      simp only [scanSelAux, if_pos hmem]
      exact List.mem_cons_self _ _
    | succ j =>
      simp only [List.getD_cons_succ] at hmem ⊢
      have hrec := ih ts (i + 1) j (by simpa using Nat.lt_of_succ_lt_succ hj) hmem
      have harith : i + 1 + j = i + (j + 1) := by omega
      rw [harith] at hrec
      simp only [scanSelAux]
      by_cases hf : f ∈ ts
      · rw [if_pos hf]; exact List.mem_cons_of_mem _ hrec
      · rw [if_neg hf]; exact hrec

theorem scanSel_pairwise : ∀ (fs : List Str) (ts : List Str) (i : Nat),
    (scanSelAux ts i fs).Pairwise (fun a b => a.1 < b.1) := by
  intro fs
  induction fs with
  | nil => intro ts i; simp [scanSelAux]
  | cons f fs ih =>
    intro ts i
    simp only [scanSelAux]
    by_cases hf : f ∈ ts
    · rw [if_pos hf]
      refine List.Pairwise.cons ?_ (ih ts (i + 1))
      intro pr hpr
      have := (scanSel_mem fs ts (i + 1) pr hpr).1
      simp only
      omega
    · rw [if_neg hf]; exact ih ts (i + 1)

theorem scanSel_all_fst : ∀ (fs : List Str) (ts : List Str) (i : Nat),
    (∀ f ∈ fs, f ∈ ts) →
    (scanSelAux ts i fs).map Prod.fst = List.range' i fs.length := by
  intro fs
  induction fs with
  | nil => intro ts i _; simp [scanSelAux]
  | cons f fs ih =>
    intro ts i hall
    have hf : f ∈ ts := hall f (List.mem_cons_self _ _)
    simp only [scanSelAux, if_pos hf, List.map_cons, List.length_cons, List.range'_succ]
    rw [ih ts (i + 1) (fun x hx => hall x (List.mem_cons_of_mem f hx))]

theorem scanSel_all_snd : ∀ (fs : List Str) (ts : List Str) (i : Nat),
    (∀ f ∈ fs, f ∈ ts) → (scanSelAux ts i fs).map Prod.snd = fs := by
  intro fs
  induction fs with
  | nil => intro ts i _; simp [scanSelAux]
  | cons f fs ih =>
    intro ts i hall
    have hf : f ∈ ts := hall f (List.mem_cons_self _ _)
    simp only [scanSelAux, if_pos hf, List.map_cons]
    rw [ih ts (i + 1) (fun x hx => hall x (List.mem_cons_of_mem f hx))]

/-! ### Lemmas about the pipeline -/

theorem getElem?_singleton {α : Type} (w v : α) (i : Nat) (h : [w][i]? = some v) :
    i = 0 ∧ w = v := by
  cases i with
  | zero =>
    refine ⟨rfl, ?_⟩
    simpa using h
  | succ i => simp at h

theorem sum_heldW_set (ws : List WStatus) (i : Nat) (w w' : WStatus)
    (h : ws[i]? = some w) :
    ((ws.set i w').map heldW).sum + heldW w = (ws.map heldW).sum + heldW w' := by
  induction ws generalizing i with
  | nil => simp at h
  | cons a as ih =>
    cases i with
    | zero =>
      have ha : a = w := by simpa using h
      subst ha
      simp [List.set]
      omega
    | succ i =>
      have h' : as[i]? = some w := by simpa using h
      have := ih i h'
      simp only [List.set, List.map_cons, List.sum_cons]
      omega

/-- Safety invariant of every run, any worker count: both queues stay within
the capacity bound, and the records are conserved (each input line is in
exactly one place: unread, queued, held by a worker, or written). -/
theorem reach_invariant (ts : List Str) (n : Nat) (input : List Str) (s : PState)
    (h : Reachable ts n input s) :
    s.inQ.length ≤ qcap ∧ s.outQ.length ≤ qcap ∧
      s.remaining.length + s.inQ.length + (s.workers.map heldW).sum + s.outQ.length +
        s.written.length = input.length := by
  induction h with
  | refl => simp [initState, heldW]
  | tail hab hbc ih =>
    obtain ⟨ih1, ih2, ih3⟩ := ih
    cases hbc with
    | read l rem inQ ws outQ wr ix hcap =>
      simp only at ih1 ih2 ih3 ⊢
      simp [List.length_append] at *
      omega
    | pop i l rem inQ ws outQ wr ix hi =>
      have hsum := sum_heldW_set ws i .idle (.popped l) hi
      simp only at ih1 ih2 ih3 ⊢
      simp [heldW] at *
      omega
    | work i l ix2 o rem inQ ws outQ wr ix hi h2 =>
      have hsum := sum_heldW_set ws i (.popped l) (.processed o) hi
      simp only at ih1 ih2 ih3 ⊢
      simp [heldW] at *
      omega
    | push i o rem inQ ws outQ wr ix hi hcap =>
      have hsum := sum_heldW_set ws i (.processed o) .idle hi
      simp only at ih1 ih2 ih3 ⊢
      simp [heldW] at *
      omega
    | write o rem inQ ws outQ wr ix =>
      simp only at ih1 ih2 ih3 ⊢
      simp [List.length_append] at *
      omega

/-- Ordering invariant of a single-worker run: what has been written,
followed by the output queue, the record held by the worker and the
sequential processing of everything still upstream, is exactly the
sequential in-order processing of the whole input. -/
theorem oneWorker_inv (ts : List Str) (input : List Str) (s : PState)
    (h : Reachable ts 1 input s) :
    ∃ w, s.workers = [w] ∧
      s.written ++ s.outQ ++ wOut w ++ seqOuts ts s.idxs (wIn w ++ s.inQ ++ s.remaining) =
        seqOuts ts [] input := by
  induction h with
  | refl => exact ⟨.idle, rfl, by simp [initState, wIn, wOut]⟩
  | tail hab hbc ih =>
    obtain ⟨w, hw, heq⟩ := ih
    cases hbc with
    | read l rem inQ ws outQ wr ix hcap =>
      simp only at hw heq ⊢
      refine ⟨w, hw, ?_⟩
      rw [← heq]
      simp [List.append_assoc]
    | pop i l rem inQ ws outQ wr ix hi =>
      simp only at hw heq ⊢
      subst hw
      obtain ⟨hi0, hwv⟩ := getElem?_singleton w .idle i hi
      subst hi0
      subst hwv
      refine ⟨.popped l, rfl, ?_⟩
      rw [← heq]
      simp [wIn, wOut]
    | work i l ix2 o rem inQ ws outQ wr ix hi h2 =>
      simp only at hw heq ⊢
      subst hw
      obtain ⟨hi0, hwv⟩ := getElem?_singleton w (.popped l) i hi
      subst hi0
      subst hwv
      refine ⟨.processed o, rfl, ?_⟩
      rw [← heq]
      simp only [wIn, wOut, List.nil_append, List.append_nil, List.cons_append]
      rw [show seqOuts ts ix (l :: (inQ ++ rem)) = o :: seqOuts ts ix2 (inQ ++ rem) by
        simp [seqOuts, h2]]
      simp [List.append_assoc]
    | push i o rem inQ ws outQ wr ix hi hcap =>
      simp only at hw heq ⊢
      subst hw
      obtain ⟨hi0, hwv⟩ := getElem?_singleton w (.processed o) i hi
      subst hi0
      subst hwv
      refine ⟨.idle, rfl, ?_⟩
      rw [← heq]
      simp [wIn, wOut, List.append_assoc]
    | write o rem inQ ws outQ wr ix =>
      simp only at hw heq ⊢
      refine ⟨w, hw, ?_⟩
      rw [← heq]
      simp [List.append_assoc]

/-- Each token of a record is either one of its fields or the placeholder. -/
theorem getD_mem_or_dot (fs : List Str) (i : Nat) :
    fs.getD i dotStr = dotStr ∨ fs.getD i dotStr ∈ fs := by
  by_cases hi : i < fs.length
  · right
    rw [List.getD_eq_getElem fs dotStr hi]
    exact List.getElem_mem hi
  · left
    exact List.getD_eq_default fs dotStr (by omega)

/-! ### Claim theorems -/

/-- Claim C3: for every data record and every non-empty column index map, a
record with fewer than 9 tab-separated fields is returned unchanged;
otherwise the output is the first 9 fields verbatim followed, per map
entry, by the field at that position (the placeholder "." when the
position is at or beyond the field count), so the output token count is 9
plus the map length. -/
theorem C3_record_projector (idxs : List Nat) (line : Str) (hne : idxs ≠ []) :
    ((cppSplit line).length < 9 → process_data_line idxs line = line) ∧
    (9 ≤ (cppSplit line).length →
      process_data_line idxs line =
        joinTab ((cppSplit line).take 9 ++
          idxs.map (fun i => (cppSplit line).getD i dotStr)) ∧
      (∀ i ∈ idxs, (cppSplit line).length ≤ i → (cppSplit line).getD i dotStr = dotStr) ∧
      (splitTab (process_data_line idxs line)).length = 9 + idxs.length) := by
  constructor
  · intro h
    simp [process_data_line, if_pos h]
  · intro h
    have hnot : ¬ (cppSplit line).length < 9 := by omega
    have hdef : process_data_line idxs line =
        joinTab ((cppSplit line).take 9 ++
          idxs.map (fun i => (cppSplit line).getD i dotStr)) := by
      simp [process_data_line, if_neg hnot]
    refine ⟨hdef, ?_, ?_⟩
    · intro i _ hi
      exact List.getD_eq_default _ _ hi
    · rw [hdef]
      have htf : ∀ p ∈ (cppSplit line).take 9 ++
          idxs.map (fun i => (cppSplit line).getD i dotStr), tab ∉ p := by
        intro p hp
        rcases List.mem_append.mp hp with hmem | hmem
        · exact noTab_of_mem_cppSplit line p (List.take_subset 9 _ hmem)
        · rcases List.mem_map.mp hmem with ⟨i, _, rfl⟩
          rcases getD_mem_or_dot (cppSplit line) i with hd | hd
          · rw [hd]; simp [dotStr, tab]
          · exact noTab_of_mem_cppSplit line _ hd
      have hne9 : (cppSplit line).take 9 ++
          idxs.map (fun i => (cppSplit line).getD i dotStr) ≠ [] := by
        have h9 : ((cppSplit line).take 9).length = 9 := by
          simp [List.length_take]
          omega
        intro hnil
        rcases List.append_eq_nil.mp hnil with ⟨h1, _⟩
        rw [h1] at h9
        simp at h9
      rw [splitTab_joinTab _ hne9 htf]
      simp [List.length_take]
      omega

/-- A concrete run of C3_record_projector: a 10-field record with map [9]. -/
theorem C3_record_projector_witness :
    ([9] : List Nat) ≠ [] ∧
    (9 ≤ (cppSplit (String.toList "c\t1\t.\tA\tT\t.\t.\t.\tGT\t0/0\t0/1")).length →
      process_data_line [9] (String.toList "c\t1\t.\tA\tT\t.\t.\t.\tGT\t0/0\t0/1") =
        joinTab ((cppSplit (String.toList "c\t1\t.\tA\tT\t.\t.\t.\tGT\t0/0\t0/1")).take 9 ++
          ([9] : List Nat).map (fun i =>
            (cppSplit (String.toList "c\t1\t.\tA\tT\t.\t.\t.\tGT\t0/0\t0/1")).getD i dotStr)) ∧
      (∀ i ∈ ([9] : List Nat),
        (cppSplit (String.toList "c\t1\t.\tA\tT\t.\t.\t.\tGT\t0/0\t0/1")).length ≤ i →
        (cppSplit (String.toList "c\t1\t.\tA\tT\t.\t.\t.\tGT\t0/0\t0/1")).getD i dotStr = dotStr) ∧
      (splitTab (process_data_line [9]
        (String.toList "c\t1\t.\tA\tT\t.\t.\t.\tGT\t0/0\t0/1"))).length = 9 + 1) :=
  ⟨by decide, (C3_record_projector [9] _ (by decide)).2⟩

/-- Claim C9: a line that begins with the comment marker and is not
recognised as the header (its text does not begin with "#CHROM") is passed
through unchanged, with the shared index state untouched. -/
theorem C9_comment_passthrough (ts : List Str) (cur : List Nat) (line : Str)
    (h1 : line.head? = some '#') (h2 : chromTag.isPrefixOf line = false) :
    worker_step ts cur line = .ok (cur, line) := by
  unfold worker_step
  rw [if_pos (Or.inr h1), if_neg (by simp [h2])]

/-- A concrete run of C9_comment_passthrough on a meta-information line. -/
theorem C9_comment_passthrough_witness :
    worker_step [] [3] (String.toList "##fileformat=VCFv4.2") =
      .ok ([3], String.toList "##fileformat=VCFv4.2") :=
  C9_comment_passthrough [] [3] _ (by decide) (by decide)

/-- Claim C10: the header test of the worker is a prefix match on the text
"#CHROM", applied to every line independently of any previously resolved
header (the shared state `cur` does not influence the routing), so every
such line is routed to `process_header`; an empty input line is treated
like a comment and passed through unchanged. -/
theorem C10_prefix_header_test :
    (∀ (ts : List Str) (cur : List Nat) (line : Str),
      chromTag.isPrefixOf line = true →
      worker_step ts cur line = process_header ts cur line) ∧
    (∀ (ts : List Str) (cur : List Nat), worker_step ts cur [] = .ok (cur, [])) := by
  constructor
  · intro ts cur line hpre
    have hpfx : chromTag <+: line := List.isPrefixOf_iff_prefix.mp hpre
    obtain ⟨t, ht⟩ := hpfx
    have hhead : line.head? = some '#' := by
      rw [← ht]
      rfl
    unfold worker_step
    rw [if_pos (Or.inr hhead), if_pos (by simp [hpre])]
  · intro ts cur
    unfold worker_step
    rw [if_pos (Or.inl rfl), if_neg (by decide)]

/-- A concrete run of C10_prefix_header_test: the line "#CHROMOSOME…" is
routed to header resolution (here failing, since it has no FORMAT field),
and the empty line passes through. -/
theorem C10_prefix_header_test_witness :
    worker_step [] [] (String.toList "#CHROMOSOME\tA\tB") =
      process_header [] [] (String.toList "#CHROMOSOME\tA\tB") ∧
    worker_step [] [7] [] = .ok ([7], []) :=
  ⟨C10_prefix_header_test.1 [] [] _ (by decide), C10_prefix_header_test.2 [] [7]⟩

/-- Claim C5: the three boundary failures raise exactly the specified
errors: an unopenable or effectively empty sample-name source gives
`configError` before any line of the input is consumed; a header without
the FORMAT field gives `formatError`; a header with FORMAT but no matching
sample name after it gives `noMatchError`. -/
theorem C5_boundary_errors :
    (∀ input : List Str, runPipelineSeq none input = .error .configError) ∧
    (∀ lines : List Str, (lines.map stripWS).filter (fun l => !l.isEmpty) = [] →
      loadSamples (some lines) = .error .configError) ∧
    (∀ (ts : List Str) (cur : List Nat) (header : Str),
      findFormatIdx (cppSplit header) = none →
      process_header ts cur header = .error .formatError) ∧
    (∀ (ts : List Str) (header : Str) (p : Nat),
      findFormatIdx (cppSplit header) = some p →
      (scanSelAux ts (p + 1) ((cppSplit header).drop (p + 1))).map Prod.fst = [] →
      process_header ts [] header = .error .noMatchError) := by
  refine ⟨fun input => rfl, ?_, ?_, ?_⟩
  · intro lines hfil
    simp [loadSamples, hfil]
  · intro ts cur header hfmt
    simp [process_header, hfmt]
  · intro ts header p hfmt hsel
    simp [process_header, hfmt, hsel]

/-- Concrete runs of C5_boundary_errors for all three boundary failures. -/
theorem C5_boundary_errors_witness :
    runPipelineSeq none [String.toList "x"] = .error .configError ∧
    loadSamples (some [[' ', '\t'], []]) = .error .configError ∧
    process_header [] [] (String.toList "a\tb") = .error .formatError ∧
    process_header [String.toList "S"] [] (String.toList "#CHROM\tFORMAT\tQ") =
      .error .noMatchError :=
  ⟨C5_boundary_errors.1 _, C5_boundary_errors.2.1 _ (by decide),
    C5_boundary_errors.2.2.1 [] [] _ (by decide),
    C5_boundary_errors.2.2.2 _ _ 1 (by decide) (by decide)⟩

/-- Counterexample to claim C6: the claim says leading and trailing
whitespace is stripped with interior characters left intact, but the
source erases every whitespace character of the line (an erase/remove_if
over the whole string), so the line "a b" is loaded as the name "ab", not
"a b". -/
theorem C6_interior_whitespace_cex :
    loadSamples (some [['a', ' ', 'b']]) = .ok [['a', 'b']] ∧
    (['a', 'b'] : Str) ≠ ['a', ' ', 'b'] :=
  ⟨rfl, by decide⟩

/-- Claim C6 as amended: the loader reads one name per line, removes every
whitespace character of the line (interior ones included), discards lines
that become empty, and keeps the remaining names: every loaded name is
non-empty, contains no whitespace, and is the whitespace-erasure of some
input line. -/
theorem C6_loader_strips_all_ws (lines names : List Str)
    (h : loadSamples (some lines) = .ok names) :
    names = (lines.map stripWS).filter (fun l => !l.isEmpty) ∧
    ∀ nm ∈ names, nm ≠ [] ∧ (∀ c ∈ nm, isCppSpace c = false) ∧
      ∃ l ∈ lines, nm = stripWS l := by
  simp only [loadSamples] at h
  by_cases he : ((lines.map stripWS).filter (fun l => !l.isEmpty)).isEmpty
  · rw [if_pos he] at h
    exact absurd h (by simp)
  · rw [if_neg he] at h
    simp only [Except.ok.injEq] at h
    subst h
    refine ⟨rfl, ?_⟩
    intro nm hnm
    have hmf := List.mem_filter.mp hnm
    obtain ⟨hmem, hcond⟩ := hmf
    refine ⟨?_, ?_, ?_⟩
    · intro hnil
      rw [hnil] at hcond
      simp at hcond
    · rcases List.mem_map.mp hmem with ⟨l, _, rfl⟩
      intro c hc
      have := List.mem_filter.mp hc
      simpa using this.2
    · rcases List.mem_map.mp hmem with ⟨l, hl, rfl⟩
      exact ⟨l, hl, rfl⟩

/-- A concrete run of C6_loader_strips_all_ws. -/
theorem C6_loader_strips_all_ws_witness :
    loadSamples (some [String.toList " n1 ", [], String.toList "a b"]) =
      .ok [String.toList "n1", String.toList "ab"] ∧
    ∀ nm ∈ [String.toList "n1", String.toList "ab"], nm ≠ [] ∧
      (∀ c ∈ nm, isCppSpace c = false) ∧
      ∃ l ∈ [String.toList " n1 ", [], String.toList "a b"], nm = stripWS l :=
  ⟨rfl, (C6_loader_strips_all_ws [String.toList " n1 ", [], String.toList "a b"]
    [String.toList "n1", String.toList "ab"] rfl).2⟩

/-- Claim C8: in every reachable state of a run, each of the two queues
holds at most MAX_QUEUE_SIZE = 1000 records (a push is only enabled below
capacity), no record is ever dropped (each input line is in exactly one
place of the pipeline), and in a drained final state every line read has
been written exactly once. -/
theorem C8_bounded_queues (ts : List Str) (n : Nat) (input : List Str) (s : PState)
    (h : Reachable ts n input s) :
    s.inQ.length ≤ 1000 ∧ s.outQ.length ≤ 1000 ∧
    s.remaining.length + s.inQ.length + (s.workers.map heldW).sum + s.outQ.length +
      s.written.length = input.length ∧
    (s.remaining = [] → s.inQ = [] → s.outQ = [] → (s.workers.map heldW).sum = 0 →
      s.written.length = input.length) := by
  obtain ⟨h1, h2, h3⟩ := reach_invariant ts n input s h
  refine ⟨h1, h2, h3, ?_⟩
  intro hr hq ho hw
  rw [hr, hq, ho, hw] at h3
  simp at h3
  omega

/-- A concrete run of C8_bounded_queues at the initial state of a
two-worker run. -/
theorem C8_bounded_queues_witness :
    (initState 2 [String.toList "ln"]).inQ.length ≤ 1000 ∧
    (initState 2 [String.toList "ln"]).outQ.length ≤ 1000 ∧
    (initState 2 [String.toList "ln"]).remaining.length +
      (initState 2 [String.toList "ln"]).inQ.length +
      ((initState 2 [String.toList "ln"]).workers.map heldW).sum +
      (initState 2 [String.toList "ln"]).outQ.length +
      (initState 2 [String.toList "ln"]).written.length = [String.toList "ln"].length ∧
    ((initState 2 [String.toList "ln"]).remaining = [] →
      (initState 2 [String.toList "ln"]).inQ = [] →
      (initState 2 [String.toList "ln"]).outQ = [] →
      ((initState 2 [String.toList "ln"]).workers.map heldW).sum = 0 →
      (initState 2 [String.toList "ln"]).written.length = [String.toList "ln"].length) :=
  C8_bounded_queues [] 2 [String.toList "ln"] _ Relation.ReflTransGen.refl

theorem getD_drop {α : Type} (l : List α) (n m : Nat) (d : α) :
    (l.drop n).getD m d = l.getD (n + m) d := by
  rw [List.getD_eq_getElem?_getD, List.getD_eq_getElem?_getD, List.getElem?_drop]

/-- Claim C4: when the header contains the pivot field FORMAT (first
occurrence at position p) and at least one later field is in the target
set, the rewritten header is the fields up to and including the pivot, in
order, followed by exactly the post-pivot fields that are targets, in
original header order; the column index map holds their 0-based positions
in that order (strictly increasing), and the rewritten header has
(p + 1) + (number of matches) fields. -/
theorem C4_header_resolution (ts : List Str) (header : Str) (p : Nat)
    (idxs : List Nat) (rew : Str)
    (hfmt : findFormatIdx (cppSplit header) = some p)
    (hok : process_header ts [] header = .ok (idxs, rew)) :
    rew = joinTab ((cppSplit header).take (p + 1) ++
      idxs.map (fun j => (cppSplit header).getD j [])) ∧
    splitTab rew = (cppSplit header).take (p + 1) ++
      idxs.map (fun j => (cppSplit header).getD j []) ∧
    (splitTab rew).length = (p + 1) + idxs.length ∧
    idxs.Pairwise (fun a b => a < b) ∧
    (∀ j ∈ idxs, p < j ∧ j < (cppSplit header).length ∧
      (cppSplit header).getD j [] ∈ ts) ∧
    (∀ j, p < j → j < (cppSplit header).length →
      (cppSplit header).getD j [] ∈ ts → j ∈ idxs) := by
  have hplen : p < (cppSplit header).length := findFormatIdx_lt _ p hfmt
  simp only [process_header, hfmt, List.nil_append] at hok
  by_cases hsel : (scanSelAux ts (p + 1) ((cppSplit header).drop (p + 1))).map Prod.fst = []
  · rw [if_pos hsel] at hok
    exact absurd hok (by simp)
  · rw [if_neg hsel] at hok
    simp only [Except.ok.injEq, Prod.mk.injEq] at hok
    obtain ⟨hidx, hrew⟩ := hok
    -- facts about every selected pair
    have hpair : ∀ pr ∈ scanSelAux ts (p + 1) ((cppSplit header).drop (p + 1)),
        p + 1 ≤ pr.1 ∧ pr.1 < (cppSplit header).length ∧
        (cppSplit header).getD pr.1 [] = pr.2 ∧ pr.2 ∈ ts := by
      intro pr hpr
      obtain ⟨h1, h2, h3, h4⟩ := scanSel_mem _ ts (p + 1) pr hpr
      rw [List.length_drop] at h2
      rw [getD_drop, Nat.add_sub_cancel' h1] at h3
      exact ⟨h1, by omega, h3, h4⟩
    -- the names column equals the looked-up positions
    have hsnd : (scanSelAux ts (p + 1) ((cppSplit header).drop (p + 1))).map Prod.snd =
        idxs.map (fun j => (cppSplit header).getD j []) := by
      rw [← hidx, List.map_map]
      apply List.map_congr_left
      intro pr hpr
      exact ((hpair pr hpr).2.2.1).symm
    have hrew2 : rew = joinTab ((cppSplit header).take (p + 1) ++
        idxs.map (fun j => (cppSplit header).getD j [])) := by
      rw [← hrew, hsnd]
    -- tokens of the rewritten header
    have htake : ((cppSplit header).take (p + 1)).length = p + 1 := by
      rw [List.length_take]
      omega
    have htf : ∀ q ∈ (cppSplit header).take (p + 1) ++
        idxs.map (fun j => (cppSplit header).getD j []), tab ∉ q := by
      intro q hq
      rcases List.mem_append.mp hq with hm | hm
      · exact noTab_of_mem_cppSplit header q (List.take_subset _ _ hm)
      · rcases List.mem_map.mp hm with ⟨j, hj, rfl⟩
        rw [← hidx] at hj
        rcases List.mem_map.mp hj with ⟨pr, hpr, rfl⟩
        rw [(hpair pr hpr).2.2.1]
        have : pr.2 ∈ cppSplit header := by
          rw [← (hpair pr hpr).2.2.1]
          rw [List.getD_eq_getElem _ _ (hpair pr hpr).2.1]
          exact List.getElem_mem _
        exact noTab_of_mem_cppSplit header _ this
    have hsplit : splitTab rew = (cppSplit header).take (p + 1) ++
        idxs.map (fun j => (cppSplit header).getD j []) := by
      rw [hrew2]
      refine splitTab_joinTab _ ?_ htf
      intro hnil
      rcases List.append_eq_nil.mp hnil with ⟨h1, _⟩
      rw [h1] at htake
      simp at htake
    refine ⟨hrew2, hsplit, ?_, ?_, ?_, ?_⟩
    · rw [hsplit]
      simp [htake]
    · rw [← hidx]
      exact List.Pairwise.map Prod.fst (fun a b hab => hab)
        (scanSel_pairwise _ ts (p + 1))
    · intro j hj
      rw [← hidx] at hj
      rcases List.mem_map.mp hj with ⟨pr, hpr, rfl⟩
      obtain ⟨h1, h2, h3, h4⟩ := hpair pr hpr
      exact ⟨by omega, h2, h3 ▸ h4⟩
    · intro j hpj hjlen hmem
      have hm : j - (p + 1) < ((cppSplit header).drop (p + 1)).length := by
        rw [List.length_drop]
        omega
      have hget : ((cppSplit header).drop (p + 1)).getD (j - (p + 1)) [] =
          (cppSplit header).getD j [] := by
        rw [getD_drop, Nat.add_sub_cancel' (by omega : p + 1 ≤ j)]
      have hc := scanSel_complete _ ts (p + 1) (j - (p + 1)) hm (by rw [hget]; exact hmem)
      rw [← hidx]
      apply List.mem_map.mpr
      refine ⟨(p + 1 + (j - (p + 1)), ((cppSplit header).drop (p + 1)).getD (j - (p + 1)) []),
        hc, ?_⟩
      simp only
      omega

/-- A concrete run of C4_header_resolution: header ending FORMAT, A, B, C
with target set containing only B. -/
theorem C4_header_resolution_witness :
    findFormatIdx (cppSplit (String.toList
      "#CHROM\tPOS\tID\tREF\tALT\tQUAL\tFILTER\tINFO\tFORMAT\tA\tB\tC")) = some 8 ∧
    process_header [String.toList "B"] [] (String.toList
      "#CHROM\tPOS\tID\tREF\tALT\tQUAL\tFILTER\tINFO\tFORMAT\tA\tB\tC") =
      .ok ([10], String.toList
        "#CHROM\tPOS\tID\tREF\tALT\tQUAL\tFILTER\tINFO\tFORMAT\tB") ∧
    (splitTab (String.toList
      "#CHROM\tPOS\tID\tREF\tALT\tQUAL\tFILTER\tINFO\tFORMAT\tB")).length = (8 + 1) + 1 :=
  ⟨by decide, by rfl,
    (C4_header_resolution [String.toList "B"]
      (String.toList "#CHROM\tPOS\tID\tREF\tALT\tQUAL\tFILTER\tINFO\tFORMAT\tA\tB\tC")
      8 [10]
      (String.toList "#CHROM\tPOS\tID\tREF\tALT\tQUAL\tFILTER\tINFO\tFORMAT\tB")
      (by decide) (by rfl)).2.2.1⟩

theorem take_append_of_len {α : Type} (A B : List α) (n : Nat) (h : A.length = n) :
    (A ++ B).take n = A := by
  subst h
  exact List.take_left A B

theorem drop_append_of_len {α : Type} (A B : List α) (n : Nat) (h : A.length = n) :
    (A ++ B).drop n = B := by
  subst h
  exact List.drop_left A B

theorem getD_range'_append {α : Type} (d : α) :
    ∀ (B A : List α) (n : Nat), A.length = n →
    (List.range' n B.length).map (fun i => (A ++ B).getD i d) = B := by
  intro B
  induction B with
  | nil => intro A n _; simp
  | cons b bs ih =>
    intro A n h
    simp only [List.length_cons, List.range'_succ, List.map_cons]
    have h1 : (A ++ b :: bs).getD n d = b := by
      rw [List.getD_append_right A _ d n (by omega)]
      rw [← h]
      simp
    rw [h1]
    have h2 := ih (A ++ [b]) (n + 1) (by simp [h])
    rw [← List.append_cons] at h2
    rw [h2]

/-- A projected record with at least 9 fields whose text does not end in a
tab is a fixed point of a second projection through the canonical
already-filtered map [9, …, 8 + k]. -/
theorem proj_second_pass (idxs : List Nat) (r : Str) (h9 : 9 ≤ (cppSplit r).length)
    (hlast : (process_data_line idxs r).getLast? ≠ some tab) :
    process_data_line (List.range' 9 idxs.length) (process_data_line idxs r) =
      process_data_line idxs r := by
  have hnot : ¬ (cppSplit r).length < 9 := by omega
  have hdef : process_data_line idxs r =
      joinTab ((cppSplit r).take 9 ++ idxs.map (fun i => (cppSplit r).getD i dotStr)) := by
    simp [process_data_line, if_neg hnot]
  have htake9 : ((cppSplit r).take 9).length = 9 := by
    rw [List.length_take]
    omega
  have htf : ∀ q ∈ (cppSplit r).take 9 ++
      idxs.map (fun i => (cppSplit r).getD i dotStr), tab ∉ q := by
    intro q hq
    rcases List.mem_append.mp hq with hm | hm
    · exact noTab_of_mem_cppSplit r q (List.take_subset _ _ hm)
    · rcases List.mem_map.mp hm with ⟨i, _, rfl⟩
      rcases getD_mem_or_dot (cppSplit r) i with hd | hd
      · rw [hd]; simp [dotStr, tab]
      · exact noTab_of_mem_cppSplit r _ hd
  have hlen2 : 2 ≤ ((cppSplit r).take 9 ++
      idxs.map (fun i => (cppSplit r).getD i dotStr)).length := by
    rw [List.length_append, htake9]
    omega
  have hsplit : cppSplit (process_data_line idxs r) =
      (cppSplit r).take 9 ++ idxs.map (fun i => (cppSplit r).getD i dotStr) := by
    rw [hdef]
    exact cppSplit_joinTab _ hlen2 htf (hdef ▸ hlast)
  have hlenparts : ¬ ((cppSplit r).take 9 ++
      idxs.map (fun i => (cppSplit r).getD i dotStr)).length < 9 := by
    rw [List.length_append, htake9]
    omega
  have htakepart : ((cppSplit r).take 9 ++
      idxs.map (fun i => (cppSplit r).getD i dotStr)).take 9 = (cppSplit r).take 9 :=
    take_append_of_len _ _ 9 htake9
  have hmappart : (List.range' 9 idxs.length).map (fun i =>
      ((cppSplit r).take 9 ++ idxs.map (fun i => (cppSplit r).getD i dotStr)).getD i dotStr) =
      idxs.map (fun i => (cppSplit r).getD i dotStr) := by
    rw [show idxs.length = (idxs.map (fun i => (cppSplit r).getD i dotStr)).length by
      rw [List.length_map]]
    exact getD_range'_append dotStr _ _ 9 htake9
  rw [hdef]
  have hsplit' : cppSplit (joinTab ((cppSplit r).take 9 ++
      idxs.map (fun i => (cppSplit r).getD i dotStr))) =
      (cppSplit r).take 9 ++ idxs.map (fun i => (cppSplit r).getD i dotStr) := by
    rw [← hdef]
    exact hsplit
  simp only [process_data_line]
  rw [hsplit', if_neg hlenparts, htakepart, hmappart]

/-- Claim C7 as amended: re-filtering an already-filtered output against
the same target set reproduces the rewritten header exactly, reproduces
every record with fewer than 9 fields, and reproduces every projected data
record whose text does not end in a tab; the counterexample
C7_idempotence_cex shows the remaining case (projected record whose last
selected field is empty, so its text ends in a tab) is changed by the
second pass.  Hypotheses: the target set holds no empty name, and the
pivot FORMAT is at position 8, as in a well-formed VCF header. -/
theorem C7_filter_fixed_point (ts : List Str) (hdr : Str) (idxs : List Nat) (rew : Str)
    (hts : ([] : Str) ∉ ts)
    (hfmt : findFormatIdx (cppSplit hdr) = some 8)
    (hok : process_header ts [] hdr = .ok (idxs, rew)) :
    process_header ts [] rew = .ok (List.range' 9 idxs.length, rew) ∧
    (∀ r : Str, (cppSplit r).length < 9 →
      process_data_line (List.range' 9 idxs.length) r = r) ∧
    (∀ r : Str, 9 ≤ (cppSplit r).length →
      (process_data_line idxs r).getLast? ≠ some tab →
      process_data_line (List.range' 9 idxs.length) (process_data_line idxs r) =
        process_data_line idxs r) := by
  have hplen : 8 < (cppSplit hdr).length := findFormatIdx_lt _ 8 hfmt
  simp only [process_header, hfmt, List.nil_append] at hok
  by_cases hsel : (scanSelAux ts 9 ((cppSplit hdr).drop 9)).map Prod.fst = []
  · rw [if_pos hsel] at hok
    exact absurd hok (by simp)
  · rw [if_neg hsel] at hok
    simp only [Except.ok.injEq, Prod.mk.injEq] at hok
    obtain ⟨hidx, hrew⟩ := hok
    have hselne : scanSelAux ts 9 ((cppSplit hdr).drop 9) ≠ [] := by
      intro hnil
      rw [hnil] at hsel
      simp at hsel
    have hpair : ∀ pr ∈ scanSelAux ts 9 ((cppSplit hdr).drop 9),
        9 ≤ pr.1 ∧ pr.1 < (cppSplit hdr).length ∧
        (cppSplit hdr).getD pr.1 [] = pr.2 ∧ pr.2 ∈ ts := by
      intro pr hpr
      obtain ⟨h1, h2, h3, h4⟩ := scanSel_mem _ ts 9 pr hpr
      rw [List.length_drop] at h2
      rw [getD_drop, Nat.add_sub_cancel' h1] at h3
      exact ⟨h1, by omega, h3, h4⟩
    have hnames_mem : ∀ nm ∈ (scanSelAux ts 9 ((cppSplit hdr).drop 9)).map Prod.snd,
        nm ∈ ts := by
      intro nm hnm
      rcases List.mem_map.mp hnm with ⟨pr, hpr, rfl⟩
      exact (hpair pr hpr).2.2.2
    have hnames_fld : ∀ nm ∈ (scanSelAux ts 9 ((cppSplit hdr).drop 9)).map Prod.snd,
        nm ∈ cppSplit hdr := by
      intro nm hnm
      rcases List.mem_map.mp hnm with ⟨pr, hpr, rfl⟩
      rw [← (hpair pr hpr).2.2.1]
      rw [List.getD_eq_getElem _ _ (hpair pr hpr).2.1]
      exact List.getElem_mem _
    have hnames_ne : (scanSelAux ts 9 ((cppSplit hdr).drop 9)).map Prod.snd ≠ [] := by
      intro hnil
      exact hselne (List.map_eq_nil_iff.mp hnil)
    have htake9 : ((cppSplit hdr).take 9).length = 9 := by
      rw [List.length_take]
      omega
    have htf : ∀ q ∈ (cppSplit hdr).take 9 ++
        (scanSelAux ts 9 ((cppSplit hdr).drop 9)).map Prod.snd, tab ∉ q := by
      intro q hq
      rcases List.mem_append.mp hq with hm | hm
      · exact noTab_of_mem_cppSplit hdr q (List.take_subset _ _ hm)
      · exact noTab_of_mem_cppSplit hdr q (hnames_fld q hm)
    -- the rewritten header re-tokenises to its fields
    have hfields2 : cppSplit rew = (cppSplit hdr).take 9 ++
        (scanSelAux ts 9 ((cppSplit hdr).drop 9)).map Prod.snd := by
      rw [← hrew]
      refine cppSplit_joinTab _ (by rw [List.length_append, htake9]; omega) htf ?_
      -- the joined text does not end in a tab: the last token is a
      -- non-empty target name
      rcases hlast : ((scanSelAux ts 9 ((cppSplit hdr).drop 9)).map Prod.snd).getLast?
        with _ | lastnm
      · rw [List.getLast?_eq_none_iff] at hlast
        exact absurd hlast hnames_ne
      · have hlmem := List.mem_of_mem_getLast? hlast
        have hlne : lastnm ≠ [] := by
          intro hnil
          exact hts (hnil ▸ hnames_mem lastnm hlmem)
        have hltf : tab ∉ lastnm := noTab_of_mem_cppSplit hdr lastnm (hnames_fld lastnm hlmem)
        have hlastparts : ((cppSplit hdr).take 9 ++
            (scanSelAux ts 9 ((cppSplit hdr).drop 9)).map Prod.snd).getLast? =
            some lastnm := by
          rw [List.getLast?_append_of_ne_nil _ hnames_ne, hlast]
        rw [getLast?_joinTab _ lastnm hlastparts hlne]
        rcases hlc : lastnm.getLast? with _ | c
        · rw [List.getLast?_eq_none_iff] at hlc
          exact absurd hlc hlne
        · intro hcon
          have : c = tab := by simpa using hcon
          exact hltf (this ▸ List.mem_of_mem_getLast? hlc)
    refine ⟨?_, ?_, ?_⟩
    · -- re-resolving the rewritten header
      have hfmt2 : findFormatIdx (cppSplit rew) = some 8 := by
        rw [hfields2]
        exact findFormatIdx_append_left _ _ 8 (findFormatIdx_take _ 8 9 hfmt (by omega))
      simp only [process_header, hfmt2, List.nil_append]
      have hdrop2 : (cppSplit rew).drop 9 =
          (scanSelAux ts 9 ((cppSplit hdr).drop 9)).map Prod.snd := by
        rw [hfields2]
        exact drop_append_of_len _ _ 9 htake9
      have htake2 : (cppSplit rew).take 9 = (cppSplit hdr).take 9 := by
        rw [hfields2]
        exact take_append_of_len _ _ 9 htake9
      rw [hdrop2, htake2]
      rw [scanSel_all_fst _ ts 9 hnames_mem, scanSel_all_snd _ ts 9 hnames_mem]
      rw [List.length_map]
      have hlensel : idxs.length = (scanSelAux ts 9 ((cppSplit hdr).drop 9)).length := by
        rw [← hidx, List.length_map]
      rw [if_neg (by
        rw [List.range'_eq_nil]
        intro hzero
        exact hselne (List.length_eq_zero.mp hzero))]
      rw [hlensel, hrew]
    · intro r hr
      simp [process_data_line, if_pos hr]
    · intro r h9 hlast
      exact proj_second_pass idxs r h9 hlast

/-- Counterexample to claim C7 as stated: the already-filtered record
"c 1 . A T . . . GT ␉" (a projection the filter itself produced from an
input whose only selected sample field is empty) is changed by a second
pass: re-tokenising drops the trailing empty field, so the second pass has
only 9 fields and emits the placeholder "." for the selected column. -/
theorem C7_idempotence_cex :
    process_header [String.toList "S1"] []
      (String.toList "#CHROM\tPOS\tID\tREF\tALT\tQUAL\tFILTER\tINFO\tFORMAT\tS1") =
      .ok ([9], String.toList "#CHROM\tPOS\tID\tREF\tALT\tQUAL\tFILTER\tINFO\tFORMAT\tS1") ∧
    process_data_line [9] (String.toList "c\t1\t.\tA\tT\t.\t.\t.\tGT\t\t") =
      String.toList "c\t1\t.\tA\tT\t.\t.\t.\tGT\t" ∧
    process_data_line [9] (String.toList "c\t1\t.\tA\tT\t.\t.\t.\tGT\t") =
      String.toList "c\t1\t.\tA\tT\t.\t.\t.\tGT\t." ∧
    String.toList "c\t1\t.\tA\tT\t.\t.\t.\tGT\t." ≠
      String.toList "c\t1\t.\tA\tT\t.\t.\t.\tGT\t" :=
  ⟨rfl, rfl, rfl, by decide⟩

/-- A concrete run of C7_filter_fixed_point: the filtered header is
reproduced, and a projected record ending in a non-empty field is
reproduced by the second pass. -/
theorem C7_filter_fixed_point_witness :
    process_header [String.toList "S1"] []
      (String.toList "#CHROM\tPOS\tID\tREF\tALT\tQUAL\tFILTER\tINFO\tFORMAT\tS1") =
      .ok (List.range' 9 1,
        String.toList "#CHROM\tPOS\tID\tREF\tALT\tQUAL\tFILTER\tINFO\tFORMAT\tS1") ∧
    process_data_line (List.range' 9 1)
        (process_data_line [9] (String.toList "c\t1\t.\tA\tT\t.\t.\t.\tGT\t0/1")) =
      process_data_line [9] (String.toList "c\t1\t.\tA\tT\t.\t.\t.\tGT\t0/1") := by
  have h := C7_filter_fixed_point [String.toList "S1"]
    (String.toList "#CHROM\tPOS\tID\tREF\tALT\tQUAL\tFILTER\tINFO\tFORMAT\tS1")
    [9]
    (String.toList "#CHROM\tPOS\tID\tREF\tALT\tQUAL\tFILTER\tINFO\tFORMAT\tS1")
    (by decide) (by decide) (by rfl)
  exact ⟨h.1, h.2.2 (String.toList "c\t1\t.\tA\tT\t.\t.\t.\tGT\t0/1") (by decide) (by decide)⟩

/-! ### Concrete two-worker runs refuting the ordering and header claims -/

def tsA : List Str := [String.toList "S1"]

def hA : Str := String.toList "#CHROM\tPOS\tID\tREF\tALT\tQUAL\tFILTER\tINFO\tFORMAT\tS1\tS2"

def rewA : Str := String.toList "#CHROM\tPOS\tID\tREF\tALT\tQUAL\tFILTER\tINFO\tFORMAT\tS1"

def d1A : Str := String.toList "c\t1\t.\tA\tT\t.\t.\t.\tGT\t0/0\t0/1"

def o1A : Str := String.toList "c\t1\t.\tA\tT\t.\t.\t.\tGT\t0/0"

def d2A : Str := String.toList "c\t2\t.\tG\tC\t.\t.\t.\tGT\t1/1\t0/0"

def o2A : Str := String.toList "c\t2\t.\tG\tC\t.\t.\t.\tGT\t1/1"

def inputA : List Str := [hA, d1A, d2A]

def endA : PState := ⟨[], [], [.idle, .idle], [], [rewA, o2A, o1A], [9]⟩

/-- Counterexample to claim C1: with 2 workers there is a reachable
complete run whose output is [header, record2, record1], while the
sequential (1-worker) output of the same input is
[header, record1, record2] — the two data records are swapped, so output
order is not input order and 1-worker and 2-worker runs are not
byte-identical.  The schedule: worker 0 pops record1, worker 1 pops
record2 and pushes its result first; nothing in the source tags records
with sequence numbers or reorders them at the writer. -/
theorem C1_order_cex :
    Reachable tsA 2 inputA endA ∧
    endA.written = [rewA, o2A, o1A] ∧
    seqOuts tsA [] inputA = [rewA, o1A, o2A] ∧
    o1A ≠ o2A := by
  refine ⟨?_, rfl, by rfl, by decide⟩
  refine .head (Step.read hA [d1A, d2A] [] [.idle, .idle] [] [] [] (by decide)) ?_
  refine .head (Step.read d1A [d2A] [hA] [.idle, .idle] [] [] [] (by decide)) ?_
  refine .head (Step.read d2A [] [hA, d1A] [.idle, .idle] [] [] [] (by decide)) ?_
  refine .head (Step.pop 0 hA [] [d1A, d2A] [.idle, .idle] [] [] [] (by decide)) ?_
  refine .head (Step.work 0 hA [9] rewA [] [d1A, d2A] [.popped hA, .idle] [] [] []
    (by decide) (by rfl)) ?_
  refine .head (Step.push 0 rewA [] [d1A, d2A] [.processed rewA, .idle] [] [] [9]
    (by decide) (by decide)) ?_
  refine .head (Step.write rewA [] [d1A, d2A] [.idle, .idle] [] [] [9]) ?_
  refine .head (Step.pop 0 d1A [] [d2A] [.idle, .idle] [] [rewA] [9] (by decide)) ?_
  refine .head (Step.pop 1 d2A [] [] [.popped d1A, .idle] [] [rewA] [9] (by decide)) ?_
  refine .head (Step.work 1 d2A [9] o2A [] [] [.popped d1A, .popped d2A] [] [rewA] [9]
    (by decide) (by rfl)) ?_
  refine .head (Step.push 1 o2A [] [] [.popped d1A, .processed o2A] [] [rewA] [9]
    (by decide) (by decide)) ?_
  refine .head (Step.work 0 d1A [9] o1A [] [] [.popped d1A, .idle] [o2A] [rewA] [9]
    (by decide) (by rfl)) ?_
  refine .head (Step.push 0 o1A [] [] [.processed o1A, .idle] [o2A] [rewA] [9]
    (by decide) (by decide)) ?_
  refine .head (Step.write o2A [] [] [.idle, .idle] [o1A] [rewA] [9]) ?_
  refine .head (Step.write o1A [] [] [.idle, .idle] [] [rewA, o2A] [9]) ?_
  exact .refl

/-- Claim C1 as amended: with a single worker the written output is, in
every reachable state, a prefix of the sequential in-order processing of
the input, and a drained final state has written exactly that sequence;
with two or more workers the order is not guaranteed (see C1_order_cex). -/
theorem C1_single_worker_order (ts : List Str) (input : List Str) (s : PState)
    (h : Reachable ts 1 input s) :
    (∃ t, s.written ++ t = seqOuts ts [] input) ∧
    (s.remaining = [] → s.inQ = [] → s.workers = [.idle] → s.outQ = [] →
      s.written = seqOuts ts [] input) := by
  obtain ⟨w, hw, heq⟩ := oneWorker_inv ts input s h
  constructor
  · refine ⟨s.outQ ++ wOut w ++ seqOuts ts s.idxs (wIn w ++ s.inQ ++ s.remaining), ?_⟩
    rw [← heq]
    simp [List.append_assoc]
  · intro hr hq hws ho
    have hwidle : w = .idle := by
      have : [w] = [WStatus.idle] := hw.symm.trans hws
      simpa using this
    rw [hr, hq, ho, hwidle] at heq
    simpa [wIn, wOut, seqOuts] using heq

/-- A concrete run of C1_single_worker_order at the initial state. -/
theorem C1_single_worker_order_witness :
    (∃ t, (initState 1 inputA).written ++ t = seqOuts tsA [] inputA) ∧
    ((initState 1 inputA).remaining = [] → (initState 1 inputA).inQ = [] →
      (initState 1 inputA).workers = [.idle] → (initState 1 inputA).outQ = [] →
      (initState 1 inputA).written = seqOuts tsA [] inputA) :=
  C1_single_worker_order tsA inputA _ Relation.ReflTransGen.refl

def tsB : List Str := [String.toList "S1"]

def hB : Str := String.toList "#CHROM\tPOS\tID\tREF\tALT\tQUAL\tFILTER\tINFO\tFORMAT\tS1\tS2"

def rewB : Str := String.toList "#CHROM\tPOS\tID\tREF\tALT\tQUAL\tFILTER\tINFO\tFORMAT\tS1"

def dB : Str := String.toList "c\t1\t.\tA\tT\t.\t.\t.\tGT\t0/1\t0/0"

/-- What the data record becomes when projected before the header has been
resolved: `sample_indices` is still empty, so every sample column is
dropped. -/
def oB : Str := String.toList "c\t1\t.\tA\tT\t.\t.\t.\tGT"

def endB : PState := ⟨[], [], [.popped hB, .idle], [], [oB], []⟩

/-- Counterexample to claim C2: with 2 workers there is a reachable state
in which worker 1 has already projected the data record with the column
index map still empty (worker 0 holds the header, unprocessed), and that
truncated record — not the rewritten header — is the first item written.
Header resolution is performed by a general worker when it pops the
header line, not by a dedicated pre-streaming path. -/
theorem C2_header_cex :
    Reachable tsB 2 [hB, dB] endB ∧
    endB.written = [oB] ∧
    oB = process_data_line [] dB ∧
    process_header tsB [] hB = .ok ([9], rewB) ∧
    oB ≠ rewB ∧
    (seqOuts tsB [] [hB, dB]).head? = some rewB := by
  refine ⟨?_, rfl, by rfl, by rfl, by decide, by rfl⟩
  refine .head (Step.read hB [dB] [] [.idle, .idle] [] [] [] (by decide)) ?_
  refine .head (Step.read dB [] [hB] [.idle, .idle] [] [] [] (by decide)) ?_
  refine .head (Step.pop 0 hB [] [dB] [.idle, .idle] [] [] [] (by decide)) ?_
  refine .head (Step.pop 1 dB [] [] [.popped hB, .idle] [] [] [] (by decide)) ?_
  refine .head (Step.work 1 dB [] oB [] [] [.popped hB, .popped dB] [] [] []
    (by decide) (by rfl)) ?_
  refine .head (Step.push 1 oB [] [] [.popped hB, .processed oB] [] [] []
    (by decide) (by decide)) ?_
  refine .head (Step.write oB [] [] [.popped hB, .idle] [] [] []) ?_
  exact .refl

/-- Claim C2 as amended: header resolution is performed by whichever
general worker pops the header line.  With a single worker and the header
first in the input, the FIFO queues give the claimed behaviour: the
header is resolved before any data record is projected, so every reachable
written output is a prefix of the rewritten header followed by the data
records processed with the finished column index map.  With two or more
workers this fails (see C2_header_cex). -/
theorem C2_single_worker_header_first (ts : List Str) (hd : Str) (rest : List Str)
    (ix0 : List Nat) (rew : Str) (s : PState)
    (hpre : chromTag.isPrefixOf hd = true)
    (hres : process_header ts [] hd = .ok (ix0, rew))
    (h : Reachable ts 1 (hd :: rest) s) :
    ∃ t, s.written ++ t = rew :: seqOuts ts ix0 rest := by
  obtain ⟨w, hw, heq⟩ := oneWorker_inv ts (hd :: rest) s h
  have hh : hd.head? = some '#' := by
    obtain ⟨t', ht'⟩ := List.isPrefixOf_iff_prefix.mp hpre
    rw [← ht']
    rfl
  have hws : worker_step ts [] hd = .ok (ix0, rew) := by
    unfold worker_step
    rw [if_pos (Or.inr hh), if_pos (by simp [hpre]), hres]
  have hseq : seqOuts ts [] (hd :: rest) = rew :: seqOuts ts ix0 rest := by
    simp [seqOuts, hws]
  refine ⟨s.outQ ++ wOut w ++ seqOuts ts s.idxs (wIn w ++ s.inQ ++ s.remaining), ?_⟩
  rw [← hseq, ← heq]
  simp [List.append_assoc]

/-- A concrete run of C2_single_worker_header_first at the initial state. -/
theorem C2_single_worker_header_first_witness :
    ∃ t, (initState 1 [hB, dB]).written ++ t = rewB :: seqOuts tsB [9] [dB] :=
  C2_single_worker_header_first tsB hB [dB] [9] rewB _ (by decide) (by rfl)
    Relation.ReflTransGen.refl

end VCFModel
